import Mathlib

/-!
Verification of the tinykv-rs standalone storage engine
(`src/storage.rs`, `src/common.rs`).

Byte sequences (`Vec<u8>`) are modelled as `List Nat`; the shared
`BTreeMap<Vec<u8>, Vec<u8>>` is modelled as an association list kept
strictly sorted by byte-lexicographic key order, which is exactly the
iteration order of the Rust map.  Errors of the Rust API can arise only
from lock poisoning, which has no counterpart in a sequential model, so
the operations are total here.
-/

namespace TinyKv

/-- Byte sequences: the model of Rust `Vec<u8>` / `&[u8]`. -/
abbrev Bytes := List Nat

/-- Byte-lexicographic strict order; models `Ord` on Rust `Vec<u8>`
(element-wise comparison, a strict proper initial segment is smaller). -/
def lexLt : Bytes → Bytes → Bool
  | _, [] => false
  | [], _ :: _ => true
  | a :: as, b :: bs => if a < b then true else if b < a then false else lexLt as bs

/-- The column-family separator byte: `CF_SEPARATOR = "_"` in `src/common.rs`. -/
def CF_SEPARATOR : Nat := 95

/-- Models `common::key_with_cf`: the stored key is
`cf_bytes ++ "_" ++ key` (`src/common.rs` lines 127-132). -/
def key_with_cf (cf : Bytes) (key : Bytes) : Bytes :=
  cf ++ [CF_SEPARATOR] ++ key

/-- Helper for `stripCf`: `starts_with` plus dropping the matched part,
returning `none` when the first argument is not an initial segment. -/
def dropPre : Bytes → Bytes → Option Bytes
  | [], rest => some rest
  | _ :: _, [] => none
  | p :: ps, k :: ks => if p = k then dropPre ps ks else none

/-- Models `common::strip_cf_prefix` (`src/common.rs` lines 135-144):
succeeds exactly when the stored key starts with `cf ++ "_"` and then
returns the remaining suffix. -/
def stripCf (cf : Bytes) (key : Bytes) : Option Bytes :=
  dropPre (cf ++ [CF_SEPARATOR]) key

/-- Models `common::ModifyOp`. -/
inductive ModifyOp
  | Put
  | Delete
deriving DecidableEq

/-- Models `common::Modify`. -/
structure Modify where
  op : ModifyOp
  cf : Bytes
  key : Bytes
  value : Bytes
deriving DecidableEq

/-- Models `Modify::new_put`. -/
def Modify.new_put (cf key value : Bytes) : Modify :=
  ⟨ModifyOp.Put, cf, key, value⟩

/-- Models `Modify::new_delete` (value is left empty, as in the source). -/
def Modify.new_delete (cf key : Bytes) : Modify :=
  ⟨ModifyOp.Delete, cf, key, []⟩

/-- The in-memory store: `BTreeMap<Vec<u8>, Vec<u8>>` as an association
list in strictly ascending key order. -/
abbrev Store := List (Bytes × Bytes)

/-- The representation invariant of the `BTreeMap` model: keys strictly
ascending (hence also duplicate-free). -/
def SortedStore (s : Store) : Prop :=
  List.Pairwise (fun a b : Bytes × Bytes => lexLt a.1 b.1 = true) s

instance (s : Store) : Decidable (SortedStore s) :=
  inferInstanceAs (Decidable (List.Pairwise _ s))

/-- Models `BTreeMap::get`. -/
def btGet : Store → Bytes → Option Bytes
  | [], _ => none
  | (k, v) :: rest, q => if q = k then some v else btGet rest q

/-- Models `BTreeMap::insert` (insert or overwrite, keeping order). -/
def btInsert : Store → Bytes → Bytes → Store
  | [], k, v => [(k, v)]
  | (k0, v0) :: rest, k, v =>
    if lexLt k k0 then (k, v) :: (k0, v0) :: rest
    else if k = k0 then (k, v) :: rest
    else (k0, v0) :: btInsert rest k v

/-- Models `BTreeMap::remove` (drops the entry with the given key, if any). -/
def btRemove : Store → Bytes → Store
  | [], _ => []
  | (k0, v0) :: rest, k => if k = k0 then rest else (k0, v0) :: btRemove rest k

/-- One iteration of the loop in `StandaloneStorage::write`
(`src/storage.rs` lines 34-45). -/
def applyModify (data : Store) (m : Modify) : Store :=
  match m.op with
  | ModifyOp.Put => btInsert data (key_with_cf m.cf m.key) m.value
  | ModifyOp.Delete => btRemove data (key_with_cf m.cf m.key)

/-- Models `StandaloneStorage::write` (`src/storage.rs` lines 31-48):
the batch is applied in list order under one exclusive lock. -/
def write (batch : List Modify) (s : Store) : Store :=
  batch.foldl applyModify s

/-- Models `StandaloneStorageReader::get_cf` (`src/storage.rs` lines 139-143). -/
def get_cf (s : Store) (cf key : Bytes) : Option Bytes :=
  btGet s (key_with_cf cf key)

/-- The `k >= end` break test of `scan_cf`, applied only when an end key
is present. -/
def pastEnd : Option Bytes → Bytes → Bool
  | some e, k => !(lexLt k e)
  | none, _ => false

/-- The iteration of `StandaloneStorageReader::scan_cf`
(`src/storage.rs` lines 156-176): skip keys below the encoded start,
break at the encoded end, collect keys that strip against `cf`, and
break once `results.len() >= limit` holds after a push. -/
def scanLoop (cf pStart : Bytes) (pEnd : Option Bytes) (limit : Nat)
    (acc : List (Bytes × Bytes)) : Store → List (Bytes × Bytes)
  | [] => acc
  | (k, v) :: rest =>
    if lexLt k pStart then
      scanLoop cf pStart pEnd limit acc rest
    else if pastEnd pEnd k then
      acc
    else
      match stripCf cf k with
      | some orig =>
        if limit ≤ (acc ++ [(orig, v)]).length then acc ++ [(orig, v)]
        else scanLoop cf pStart pEnd limit (acc ++ [(orig, v)]) rest
      | none => scanLoop cf pStart pEnd limit acc rest

/-- Models `StandaloneStorageReader::scan_cf` (`src/storage.rs` lines 145-179). -/
def scan_cf (s : Store) (cf start_key : Bytes) (end_key : Option Bytes)
    (limit : Nat) : List (Bytes × Bytes) :=
  scanLoop cf (key_with_cf cf start_key) (end_key.map (key_with_cf cf)) limit [] s

/-- A UTF-8 continuation byte, `0x80 ..= 0xBF`. -/
def isCont (c : Nat) : Bool := 128 ≤ c && c ≤ 191

/-- Admissible second byte of a three-byte UTF-8 sequence (the leads
`0xE0` and `0xED` restrict it to exclude overlong forms and surrogates). -/
def lead3Ok (b c1 : Nat) : Bool :=
  if b = 224 then 160 ≤ c1 && c1 ≤ 191
  else if b = 237 then 128 ≤ c1 && c1 ≤ 159
  else isCont c1

/-- Admissible second byte of a four-byte UTF-8 sequence (the leads
`0xF0` and `0xF4` restrict it to exclude overlong forms and values
beyond `U+10FFFF`). -/
def lead4Ok (b c1 : Nat) : Bool :=
  if b = 240 then 144 ≤ c1 && c1 ≤ 191
  else if b = 244 then 128 ≤ c1 && c1 ≤ 143
  else isCont c1

/-- Models the validity check of `std::str::from_utf8` used by
`StandaloneStorage::get_stats` (`src/storage.rs` line 108). -/
def utf8Valid : Bytes → Bool
  | [] => true
  | b :: rest =>
    if b ≤ 127 then utf8Valid rest
    else
      match rest with
      | [] => false
      | c1 :: rest1 =>
        if 194 ≤ b && b ≤ 223 then isCont c1 && utf8Valid rest1
        else
          match rest1 with
          | [] => false
          | c2 :: rest2 =>
            if 224 ≤ b && b ≤ 239 then lead3Ok b c1 && isCont c2 && utf8Valid rest2
            else
              match rest2 with
              | [] => false
              | c3 :: rest3 =>
                if 240 ≤ b && b ≤ 244 then
                  lead4Ok b c1 && isCont c2 && isCont c3 && utf8Valid rest3
                else false

/-- The part of a stored key before its first separator byte: models
`key.iter().position(|&b| b == b'_')` followed by `&key[..sep_pos]` in
`get_stats`, returning `none` when no separator occurs. -/
def takeBeforeSep : Bytes → Option Bytes
  | [] => none
  | b :: rest =>
    if b = CF_SEPARATOR then some [] else (takeBeforeSep rest).map (b :: ·)

/-- The column-family name `get_stats` derives from one stored key
(`src/storage.rs` lines 107-110): the part before the first separator,
kept only when it is valid UTF-8. -/
def cfOfKey (k : Bytes) : Option Bytes :=
  match takeBeforeSep k with
  | some p => if utf8Valid p then some p else none
  | none => none

/-- Ordered duplicate-free insertion of a derived column-family name. -/
def insertKey : List Bytes → Bytes → List Bytes
  | [], c => [c]
  | c0 :: rest, c =>
    if lexLt c c0 then c :: c0 :: rest
    else if c = c0 then c0 :: rest
    else c0 :: insertKey rest c

/-- Sorted list of the distinct elements.  `get_stats` collects the
derived names into a `HashSet` and then sorts, which determines exactly
the sorted duplicate-free list of the derived names. -/
def sortDedup (l : List Bytes) : List Bytes :=
  l.foldl insertKey []

/-- Models `StandaloneStorage::get_stats` (`src/storage.rs` lines 102-118):
the total entry count together with the sorted distinct derived
column-family names. -/
def get_stats (s : Store) : Nat × List Bytes :=
  (s.length, sortDedup (s.filterMap (fun kv => cfOfKey kv.1)))

/-- The last record of a batch whose encoded key is `q`; characterizes
what `write` leaves at the stored key `q`. -/
def lastMatch : List Modify → Bytes → Option Modify
  | [], _ => none
  | m :: rest, q =>
    match lastMatch rest q with
    | some m1 => some m1
    | none => if key_with_cf m.cf m.key = q then some m else none

/-- Models `common::Command`. -/
inductive Command
  | get (cf : Bytes) (key : Bytes)
  | put (cf key value : Bytes)
  | delete (cf key : Bytes)
  | scan (cf start_key : Bytes) (end_key : Option Bytes) (limit : Nat)
  | info
  | flush
  | compact

/-- Models `common::Response`. -/
inductive Response
  | ok
  | value (v : Option Bytes)
  | values (vs : List (Bytes × Bytes))
  | error (msg : String)
  | info (total_keys : Nat) (column_families : List Bytes)
deriving DecidableEq

/-- Models `RawKeyValueApi::handle_command` (`src/common.rs` lines
188-233) acting on the in-memory map.  `flush` performs file I/O whose
outcome is outside the sequential model, so its `Result` is passed in as
a parameter; it never changes the in-memory map either way.  All other
storage calls can fail only through lock poisoning and are total here. -/
def handleCommand (flushResult : Except String Unit) (s : Store) :
    Command → Response × Store
  | Command.get cf key => (Response.value (get_cf s cf key), s)
  | Command.put cf key value => (Response.ok, write [Modify.new_put cf key value] s)
  | Command.delete cf key => (Response.ok, write [Modify.new_delete cf key] s)
  | Command.scan cf start_key end_key limit =>
      (Response.values (scan_cf s cf start_key end_key limit), s)
  | Command.info => (Response.info (get_stats s).1 (get_stats s).2, s)
  | Command.flush =>
      ((match flushResult with
        | Except.ok _ => Response.ok
        | Except.error e => Response.error e), s)
  | Command.compact => (Response.ok, s)

/-! ### Facts about the lexicographic order -/

theorem lexLt_irrefl (a : Bytes) : lexLt a a = false := by
  induction a with
  | nil => rfl
  | cons c t ih => simp [lexLt, ih]

theorem lexLt_asymm : ∀ a b : Bytes, lexLt a b = true → lexLt b a = false := by
  intro a
  induction a with
  | nil => intro b h; cases b <;> simp [lexLt]
  | cons c t ih =>
    intro b h
    cases b with
    | nil => simp [lexLt] at h
    | cons d u =>
      simp only [lexLt] at h ⊢
      by_cases hcd : c < d
      · have : ¬ d < c := by omega
        simp [hcd, this]
      · by_cases hdc : d < c
        · simp [hcd, hdc] at h
        · have hcd2 : c = d := by omega
          subst hcd2
          simp [hcd, hdc] at h ⊢
          exact ih u h

theorem lexLt_trans : ∀ a b c : Bytes,
    lexLt a b = true → lexLt b c = true → lexLt a c = true := by
  intro a
  induction a with
  | nil =>
    intro b c hab hbc
    cases b with
    | nil => simp [lexLt] at hab
    | cons d u =>
      cases c with
      | nil => simp [lexLt] at hbc
      | cons e w => simp [lexLt]
  | cons x xs ih =>
    intro b c hab hbc
    cases b with
    | nil => simp [lexLt] at hab
    | cons y ys =>
      cases c with
      | nil => simp [lexLt] at hbc
      | cons z zs =>
        simp only [lexLt] at hab hbc ⊢
        by_cases hxy : x < y
        · by_cases hyz : y < z
          · have : x < z := by omega
            simp [this]
          · by_cases hzy : z < y
            · simp [hxy, hyz, hzy] at hbc
            · have : y = z := by omega
              subst this
              simp [hxy]
        · by_cases hyx : y < x
          · simp [hxy, hyx] at hab
          · have hxyeq : x = y := by omega
            subst hxyeq
            simp only [hxy, if_neg, lt_irrefl, if_false] at hab
            by_cases hyz : x < z
            · simp [hyz]
            · by_cases hzy : z < x
              · simp [hyz, hzy] at hbc
              · have : x = z := by omega
                subst this
                simp only [lt_irrefl, if_false] at hbc ⊢
                exact ih ys zs hab hbc

theorem lexLt_eq_of_not (a b : Bytes)
    (h1 : lexLt a b = false) (h2 : lexLt b a = false) : a = b := by
  induction a generalizing b with
  | nil =>
    cases b with
    | nil => rfl
    | cons d u => simp [lexLt] at h1
  | cons c t ih =>
    cases b with
    | nil => simp [lexLt] at h2
    | cons d u =>
      simp only [lexLt] at h1 h2
      by_cases hcd : c < d
      · simp [hcd] at h1
      · by_cases hdc : d < c
        · simp [hcd, hdc] at h2
        · have : c = d := by omega
          subst this
          simp only [lt_irrefl, if_false] at h1 h2
          rw [ih u h1 h2]

theorem lexLt_connex (a b : Bytes) (hne : a ≠ b) :
    lexLt a b = true ∨ lexLt b a = true := by
  by_cases h1 : lexLt a b = true
  · exact Or.inl h1
  · by_cases h2 : lexLt b a = true
    · exact Or.inr h2
    · exact absurd (lexLt_eq_of_not a b (by simpa using h1) (by simpa using h2)) hne

theorem lexLt_append (p a b : Bytes) : lexLt (p ++ a) (p ++ b) = lexLt a b := by
  induction p with
  | nil => rfl
  | cons c t ih => simp [lexLt, ih]

/-! ### Facts about the ordered-map model -/

theorem btGet_insert_self (s : Store) (k v : Bytes) :
    btGet (btInsert s k v) k = some v := by
  induction s with
  | nil => simp [btInsert, btGet]
  | cons hd rest ih =>
    obtain ⟨k0, v0⟩ := hd
    simp only [btInsert]
    by_cases h1 : lexLt k k0
    · rw [if_pos h1]
      simp [btGet]
    · rw [if_neg h1]
      by_cases h2 : k = k0
      · rw [if_pos h2]
        simp [btGet]
      · rw [if_neg h2]
        simp [btGet, h2, ih]

theorem btGet_insert_ne (s : Store) (k v q : Bytes) (hne : q ≠ k) :
    btGet (btInsert s k v) q = btGet s q := by
  induction s with
  | nil => simp [btInsert, btGet, hne]
  | cons hd rest ih =>
    obtain ⟨k0, v0⟩ := hd
    simp only [btInsert]
    by_cases h1 : lexLt k k0
    · simp [h1, btGet, hne]
    · by_cases h2 : k = k0
      · subst h2
        simp [h1, btGet, hne]
      · by_cases h3 : q = k0
        · simp [h1, h2, btGet, h3]
        · simp [h1, h2, btGet, h3, ih]

theorem btGet_remove_ne (s : Store) (k q : Bytes) (hne : q ≠ k) :
    btGet (btRemove s k) q = btGet s q := by
  induction s with
  | nil => simp [btRemove]
  | cons hd rest ih =>
    obtain ⟨k0, v0⟩ := hd
    simp only [btRemove]
    by_cases h1 : k = k0
    · subst h1
      simp [btGet, hne]
    · by_cases h2 : q = k0
      · simp [h1, btGet, h2]
      · simp [h1, btGet, h2, ih]

theorem btGet_none_of_not_key (s : Store) (q : Bytes)
    (h : ∀ x ∈ s, x.1 ≠ q) : btGet s q = none := by
  induction s with
  | nil => rfl
  | cons hd rest ih =>
    obtain ⟨k0, v0⟩ := hd
    have hk0 : k0 ≠ q := h (k0, v0) (List.mem_cons_self _ _)
    have hq : q ≠ k0 := Ne.symm hk0
    simp only [btGet, if_neg hq]
    exact ih (fun x hx => h x (List.mem_cons_of_mem _ hx))

theorem btGet_remove_self (s : Store) (k : Bytes) (hs : SortedStore s) :
    btGet (btRemove s k) k = none := by
  induction s with
  | nil => rfl
  | cons hd rest ih =>
    obtain ⟨k0, v0⟩ := hd
    rw [SortedStore, List.pairwise_cons] at hs
    obtain ⟨hall, hrest⟩ := hs
    simp only [btRemove]
    by_cases h1 : k = k0
    · rw [if_pos h1]
      subst h1
      refine btGet_none_of_not_key rest k ?_
      intro x hx hq
      have h2 := hall x hx
      rw [hq] at h2
      simp [lexLt_irrefl] at h2
    · rw [if_neg h1]
      simp only [btGet, if_neg h1]
      exact ih hrest

theorem btRemove_of_absent (s : Store) (k : Bytes)
    (h : btGet s k = none) : btRemove s k = s := by
  induction s with
  | nil => rfl
  | cons hd rest ih =>
    obtain ⟨k0, v0⟩ := hd
    simp only [btGet] at h
    by_cases h1 : k = k0
    · simp [h1] at h
    · simp only [if_neg h1] at h
      simp [btRemove, h1, ih h]

theorem btGet_mem (s : Store) (q v : Bytes) (h : btGet s q = some v) :
    (q, v) ∈ s := by
  induction s with
  | nil => simp [btGet] at h
  | cons hd rest ih =>
    obtain ⟨k0, v0⟩ := hd
    simp only [btGet] at h
    by_cases h1 : q = k0
    · simp only [if_pos h1] at h
      subst h1
      obtain rfl : v0 = v := by injection h
      exact List.mem_cons_self _ _
    · exact List.mem_cons_of_mem _ (ih (by simpa [h1] using h))

theorem btGet_of_mem (s : Store) (q v : Bytes) (hs : SortedStore s)
    (h : (q, v) ∈ s) : btGet s q = some v := by
  induction s with
  | nil => simp at h
  | cons hd rest ih =>
    obtain ⟨k0, v0⟩ := hd
    rw [SortedStore, List.pairwise_cons] at hs
    obtain ⟨hall, hrest⟩ := hs
    rcases List.mem_cons.mp h with heq | hmem
    · obtain ⟨rfl, rfl⟩ := Prod.mk.injEq .. ▸ (by exact Prod.mk.inj (heq.symm ▸ rfl) : k0 = q ∧ v0 = v)
      simp [btGet]
    · have hne : q ≠ k0 := by
        intro hq
        have := hall (q, v) hmem
        rw [hq] at this
        simp [lexLt_irrefl] at this
      simp only [btGet, if_neg hne]
      exact ih hrest hmem

theorem mem_btInsert (s : Store) (k v : Bytes) (x : Bytes × Bytes)
    (h : x ∈ btInsert s k v) : x ∈ s ∨ x = (k, v) := by
  induction s with
  | nil => simpa [btInsert] using (List.mem_singleton.mp (by simpa [btInsert] using h))
  | cons hd rest ih =>
    obtain ⟨k0, v0⟩ := hd
    simp only [btInsert] at h
    by_cases h1 : lexLt k k0
    · simp only [if_pos h1, List.mem_cons] at h
      rcases h with h | h
      · exact Or.inr h
      · exact Or.inl (by simpa using h)
    · by_cases h2 : k = k0
      · simp only [if_neg h1, if_pos h2, List.mem_cons] at h
        rcases h with h | h
        · exact Or.inr h
        · exact Or.inl (List.mem_cons_of_mem _ h)
      · simp only [if_neg h1, if_neg h2, List.mem_cons] at h
        rcases h with h | h
        · exact Or.inl (List.mem_cons.mpr (Or.inl h))
        · rcases ih h with h3 | h3
          · exact Or.inl (List.mem_cons_of_mem _ h3)
          · exact Or.inr h3

theorem mem_btRemove (s : Store) (k : Bytes) (x : Bytes × Bytes)
    (h : x ∈ btRemove s k) : x ∈ s := by
  induction s with
  | nil => simp [btRemove] at h
  | cons hd rest ih =>
    obtain ⟨k0, v0⟩ := hd
    simp only [btRemove] at h
    by_cases h1 : k = k0
    · simp only [if_pos h1] at h
      exact List.mem_cons_of_mem _ h
    · simp only [if_neg h1, List.mem_cons] at h
      rcases h with h | h
      · exact List.mem_cons.mpr (Or.inl h)
      · exact List.mem_cons_of_mem _ (ih h)

theorem sorted_btInsert (s : Store) (k v : Bytes) (hs : SortedStore s) :
    SortedStore (btInsert s k v) := by
  induction s with
  | nil => simp [btInsert, SortedStore]
  | cons hd rest ih =>
    obtain ⟨k0, v0⟩ := hd
    rw [SortedStore, List.pairwise_cons] at hs
    obtain ⟨hall, hrest⟩ := hs
    simp only [btInsert]
    by_cases h1 : lexLt k k0
    · rw [if_pos h1, SortedStore, List.pairwise_cons]
      refine ⟨?_, List.pairwise_cons.mpr ⟨hall, hrest⟩⟩
      intro x hx
      rcases List.mem_cons.mp hx with rfl | hx2
      · exact h1
      · exact lexLt_trans k k0 x.1 h1 (hall x hx2)
    · rw [if_neg h1]
      by_cases h2 : k = k0
      · rw [if_pos h2, SortedStore, List.pairwise_cons]
        subst h2
        exact ⟨hall, hrest⟩
      · rw [if_neg h2, SortedStore, List.pairwise_cons]
        have hk0k : lexLt k0 k = true := by
          rcases lexLt_connex k0 k (fun h3 => h2 h3.symm) with h3 | h3
          · exact h3
          · exact absurd h3 h1
        refine ⟨?_, ih hrest⟩
        intro x hx
        rcases mem_btInsert rest k v x hx with h3 | h3
        · exact hall x h3
        · rw [h3]
          exact hk0k

theorem sorted_btRemove (s : Store) (k : Bytes) (hs : SortedStore s) :
    SortedStore (btRemove s k) := by
  induction s with
  | nil => simpa [btRemove] using hs
  | cons hd rest ih =>
    obtain ⟨k0, v0⟩ := hd
    rw [SortedStore, List.pairwise_cons] at hs
    obtain ⟨hall, hrest⟩ := hs
    simp only [btRemove]
    by_cases h1 : k = k0
    · simpa [h1] using hrest
    · rw [if_neg h1, SortedStore, List.pairwise_cons]
      constructor
      · intro x hx
        exact hall x (mem_btRemove rest k x hx)
      · exact ih hrest

theorem sorted_applyModify (s : Store) (m : Modify) (hs : SortedStore s) :
    SortedStore (applyModify s m) := by
  cases hop : m.op <;> simp only [applyModify, hop]
  · exact sorted_btInsert _ _ _ hs
  · exact sorted_btRemove _ _ hs

theorem sorted_write (batch : List Modify) (s : Store) (hs : SortedStore s) :
    SortedStore (write batch s) := by
  induction batch generalizing s with
  | nil => simpa [write] using hs
  | cons m rest ih =>
    have : write (m :: rest) s = write rest (applyModify s m) := rfl
    rw [this]
    exact ih (applyModify s m) (sorted_applyModify s m hs)

theorem mem_write (batch : List Modify) (s : Store) (q v : Bytes)
    (h : (q, v) ∈ write batch s) :
    (q, v) ∈ s ∨ ∃ m ∈ batch, q = key_with_cf m.cf m.key := by
  induction batch generalizing s with
  | nil => exact Or.inl (by simpa [write] using h)
  | cons m rest ih =>
    have hw : write (m :: rest) s = write rest (applyModify s m) := rfl
    rw [hw] at h
    rcases ih (applyModify s m) h with h1 | h1
    · cases hop : m.op <;> simp only [applyModify, hop] at h1
      · rcases mem_btInsert s _ _ _ h1 with h2 | h2
        · exact Or.inl h2
        · exact Or.inr ⟨m, List.mem_cons_self _ _, congrArg Prod.fst h2⟩
      · exact Or.inl (mem_btRemove s _ _ h1)
    · obtain ⟨m1, hm1, hq⟩ := h1
      exact Or.inr ⟨m1, List.mem_cons_of_mem _ hm1, hq⟩

/-! ### Facts about the key encoding -/

theorem dropPre_some (p : Bytes) : ∀ k r : Bytes, dropPre p k = some r → k = p ++ r := by
  induction p with
  | nil =>
    intro k r h
    simp only [dropPre, Option.some.injEq] at h
    simp [h]
  | cons c t ih =>
    intro k r h
    cases k with
    | nil => simp [dropPre] at h
    | cons d u =>
      simp only [dropPre] at h
      by_cases hcd : c = d
      · rw [if_pos hcd] at h
        subst hcd
        simp [ih u r h]
      · rw [if_neg hcd] at h
        exact absurd h (by simp)

theorem stripCf_some (cf k r : Bytes) (h : stripCf cf k = some r) :
    k = key_with_cf cf r := by
  have h1 := dropPre_some (cf ++ [CF_SEPARATOR]) k r h
  rw [h1, key_with_cf, List.append_assoc]

theorem key_with_cf_inj_cf (a b k : Bytes) (h : key_with_cf a k = key_with_cf b k) :
    a = b := by
  rw [key_with_cf, key_with_cf, List.append_assoc, List.append_assoc] at h
  have hlen : a.length = b.length := by
    have := congrArg List.length h
    simp only [List.length_append] at this
    omega
  exact (List.append_inj h hlen).1

theorem sep_append_inj : ∀ a b x y : Bytes, CF_SEPARATOR ∉ a → CF_SEPARATOR ∉ b →
    a ++ CF_SEPARATOR :: x = b ++ CF_SEPARATOR :: y → a = b ∧ x = y := by
  intro a
  induction a with
  | nil =>
    intro b x y ha hb h
    cases b with
    | nil =>
      simp only [List.nil_append, List.cons.injEq] at h
      exact ⟨rfl, h.2⟩
    | cons d u =>
      simp only [List.nil_append, List.cons_append, List.cons.injEq] at h
      exact absurd (List.mem_cons.mpr (Or.inl h.1)) hb
  | cons c t ih =>
    intro b x y ha hb h
    cases b with
    | nil =>
      simp only [List.cons_append, List.nil_append, List.cons.injEq] at h
      exact absurd (List.mem_cons.mpr (Or.inl h.1.symm)) ha
    | cons d u =>
      simp only [List.cons_append, List.cons.injEq] at h
      obtain ⟨hcd, htail⟩ := h
      have ha2 : CF_SEPARATOR ∉ t := fun hin => ha (List.mem_cons_of_mem _ hin)
      have hb2 : CF_SEPARATOR ∉ u := fun hin => hb (List.mem_cons_of_mem _ hin)
      obtain ⟨h3, h4⟩ := ih u x y ha2 hb2 htail
      exact ⟨by rw [hcd, h3], h4⟩

theorem sep_inj (a b x y : Bytes)
    (ha : CF_SEPARATOR ∉ a) (hb : CF_SEPARATOR ∉ b)
    (h : key_with_cf a x = key_with_cf b y) : a = b ∧ x = y := by
  apply sep_append_inj a b x y ha hb
  simpa [key_with_cf, List.append_assoc] using h

theorem takeBeforeSep_encode (cf k : Bytes) (h : CF_SEPARATOR ∉ cf) :
    takeBeforeSep (key_with_cf cf k) = some cf := by
  induction cf with
  | nil => simp [key_with_cf, takeBeforeSep]
  | cons c t ih =>
    have hc : c ≠ CF_SEPARATOR := fun he => h (List.mem_cons.mpr (Or.inl he.symm))
    have ht : CF_SEPARATOR ∉ t := fun hin => h (List.mem_cons_of_mem _ hin)
    have hkey : key_with_cf (c :: t) k = c :: key_with_cf t k := by
      simp [key_with_cf]
    rw [hkey]
    simp only [takeBeforeSep, if_neg hc, ih ht]
    rfl

theorem cfOfKey_encode (cf k : Bytes) (h95 : CF_SEPARATOR ∉ cf)
    (hval : utf8Valid cf = true) : cfOfKey (key_with_cf cf k) = some cf := by
  have h1 := takeBeforeSep_encode cf k h95
  simp [cfOfKey, h1, hval]

/-! ### Facts about the sorted duplicate-free name list of `get_stats` -/

theorem mem_insertKey (l : List Bytes) (c x : Bytes) :
    x ∈ insertKey l c ↔ x ∈ l ∨ x = c := by
  induction l with
  | nil => simp [insertKey]
  | cons c0 rest ih =>
    simp only [insertKey]
    by_cases h1 : lexLt c c0
    · rw [if_pos h1]
      simp only [List.mem_cons]
      tauto
    · rw [if_neg h1]
      by_cases h2 : c = c0
      · rw [if_pos h2]
        subst h2
        simp only [List.mem_cons]
        tauto
      · rw [if_neg h2]
        simp only [List.mem_cons, ih]
        tauto

theorem pairwise_insertKey (l : List Bytes) (c : Bytes)
    (hl : List.Pairwise (fun a b => lexLt a b = true) l) :
    List.Pairwise (fun a b => lexLt a b = true) (insertKey l c) := by
  induction l with
  | nil => simp [insertKey]
  | cons c0 rest ih =>
    rw [List.pairwise_cons] at hl
    obtain ⟨hall, hrest⟩ := hl
    simp only [insertKey]
    by_cases h1 : lexLt c c0
    · rw [if_pos h1, List.pairwise_cons]
      refine ⟨?_, List.pairwise_cons.mpr ⟨hall, hrest⟩⟩
      intro x hx
      rcases List.mem_cons.mp hx with rfl | hx2
      · exact h1
      · exact lexLt_trans c c0 x h1 (hall x hx2)
    · rw [if_neg h1]
      by_cases h2 : c = c0
      · rw [if_pos h2, List.pairwise_cons]
        exact ⟨hall, hrest⟩
      · rw [if_neg h2, List.pairwise_cons]
        have hc0c : lexLt c0 c = true := by
          rcases lexLt_connex c0 c (fun h3 => h2 h3.symm) with h3 | h3
          · exact h3
          · exact absurd h3 h1
        refine ⟨?_, ih hrest⟩
        intro x hx
        rcases (mem_insertKey rest c x).mp hx with h3 | h3
        · exact hall x h3
        · rw [h3]
          exact hc0c

theorem mem_foldl_insertKey (l : List Bytes) :
    ∀ (acc : List Bytes) (x : Bytes),
      x ∈ l.foldl insertKey acc ↔ x ∈ acc ∨ x ∈ l := by
  induction l with
  | nil => simp
  | cons c rest ih =>
    intro acc x
    have h1 : (c :: rest).foldl insertKey acc = rest.foldl insertKey (insertKey acc c) := rfl
    rw [h1, ih (insertKey acc c) x, mem_insertKey]
    simp only [List.mem_cons]
    tauto

theorem mem_sortDedup (l : List Bytes) (x : Bytes) :
    x ∈ sortDedup l ↔ x ∈ l := by
  rw [sortDedup, mem_foldl_insertKey]
  simp

theorem pairwise_foldl_insertKey (l : List Bytes) :
    ∀ acc : List Bytes, List.Pairwise (fun a b => lexLt a b = true) acc →
      List.Pairwise (fun a b => lexLt a b = true) (l.foldl insertKey acc) := by
  induction l with
  | nil => intro acc h; simpa using h
  | cons c rest ih =>
    intro acc h
    exact ih (insertKey acc c) (pairwise_insertKey acc c h)

theorem pairwise_sortDedup (l : List Bytes) :
    List.Pairwise (fun a b => lexLt a b = true) (sortDedup l) :=
  pairwise_foldl_insertKey l [] (by simp)

/-! ### Facts about the scan loop -/

theorem lexLt_encode (cf a b : Bytes) :
    lexLt (key_with_cf cf a) (key_with_cf cf b) = lexLt a b :=
  lexLt_append (cf ++ [CF_SEPARATOR]) a b

theorem scanLoop_mem (cf pS : Bytes) (pE : Option Bytes) (limit : Nat) :
    ∀ (l : Store) (acc : List (Bytes × Bytes)) (p : Bytes × Bytes),
      p ∈ scanLoop cf pS pE limit acc l →
      p ∈ acc ∨ ∃ kv : Bytes × Bytes, kv ∈ l ∧ lexLt kv.1 pS = false ∧
        pastEnd pE kv.1 = false ∧ stripCf cf kv.1 = some p.1 ∧ kv.2 = p.2 := by
  intro l
  induction l with
  | nil =>
    intro acc p hp
    exact Or.inl (by simpa [scanLoop] using hp)
  | cons hd rest ih =>
    intro acc p hp
    obtain ⟨k, v⟩ := hd
    simp only [scanLoop] at hp
    by_cases h1 : lexLt k pS
    · rw [if_pos h1] at hp
      rcases ih acc p hp with h | ⟨kv, hkv, hr⟩
      · exact Or.inl h
      · exact Or.inr ⟨kv, List.mem_cons_of_mem _ hkv, hr⟩
    · have hf1 : lexLt k pS = false := by simpa using h1
      rw [if_neg h1] at hp
      by_cases h2 : pastEnd pE k
      · rw [if_pos h2] at hp
        exact Or.inl hp
      · have hf2 : pastEnd pE k = false := by simpa using h2
        rw [if_neg h2] at hp
        cases hstrip : stripCf cf k with
        | some orig =>
          rw [hstrip] at hp
          simp only at hp
          by_cases h3 : limit ≤ (acc ++ [(orig, v)]).length
          · rw [if_pos h3] at hp
            rcases List.mem_append.mp hp with h | h
            · exact Or.inl h
            · have hpv : p = (orig, v) := List.mem_singleton.mp h
              subst hpv
              exact Or.inr ⟨(k, v), List.mem_cons_self _ _, hf1, hf2, hstrip, rfl⟩
          · rw [if_neg h3] at hp
            rcases ih (acc ++ [(orig, v)]) p hp with h | ⟨kv, hkv, hr⟩
            · rcases List.mem_append.mp h with h4 | h4
              · exact Or.inl h4
              · have hpv : p = (orig, v) := List.mem_singleton.mp h4
                subst hpv
                exact Or.inr ⟨(k, v), List.mem_cons_self _ _, hf1, hf2, hstrip, rfl⟩
            · exact Or.inr ⟨kv, List.mem_cons_of_mem _ hkv, hr⟩
        | none =>
          rw [hstrip] at hp
          simp only at hp
          rcases ih acc p hp with h | ⟨kv, hkv, hr⟩
          · exact Or.inl h
          · exact Or.inr ⟨kv, List.mem_cons_of_mem _ hkv, hr⟩

theorem scanLoop_pairwise (cf pS : Bytes) (pE : Option Bytes) (limit : Nat) :
    ∀ (l : Store) (acc : List (Bytes × Bytes)),
      List.Pairwise (fun a b : Bytes × Bytes => lexLt a.1 b.1 = true) l →
      List.Pairwise (fun a b : Bytes × Bytes => lexLt a.1 b.1 = true) acc →
      (∀ a ∈ acc, ∀ x ∈ l, lexLt (key_with_cf cf a.1) x.1 = true) →
      List.Pairwise (fun a b : Bytes × Bytes => lexLt a.1 b.1 = true)
        (scanLoop cf pS pE limit acc l) := by
  intro l
  induction l with
  | nil =>
    intro acc _ hacc _
    simpa [scanLoop] using hacc
  | cons hd rest ih =>
    intro acc hl hacc hord
    obtain ⟨k, v⟩ := hd
    rw [List.pairwise_cons] at hl
    obtain ⟨hall, hrest⟩ := hl
    have hordr : ∀ a ∈ acc, ∀ x ∈ rest, lexLt (key_with_cf cf a.1) x.1 = true :=
      fun a ha x hx => hord a ha x (List.mem_cons_of_mem _ hx)
    simp only [scanLoop]
    by_cases h1 : lexLt k pS
    · rw [if_pos h1]
      exact ih acc hrest hacc hordr
    · rw [if_neg h1]
      by_cases h2 : pastEnd pE k
      · rw [if_pos h2]
        exact hacc
      · rw [if_neg h2]
        cases hstrip : stripCf cf k with
        | some orig =>
          have hk : k = key_with_cf cf orig := stripCf_some cf k orig hstrip
          have hacc2 : List.Pairwise (fun a b : Bytes × Bytes => lexLt a.1 b.1 = true)
              (acc ++ [(orig, v)]) := by
            rw [List.pairwise_append]
            refine ⟨hacc, List.pairwise_singleton _ _, ?_⟩
            intro a ha b hb
            have hb2 : b = (orig, v) := List.mem_singleton.mp hb
            subst hb2
            have h3 := hord a ha (k, v) (List.mem_cons_self _ _)
            rw [hk] at h3
            rw [show ((orig, v) : Bytes × Bytes).1 = orig from rfl]
            rw [← lexLt_encode cf a.1 orig]
            exact h3
          simp only
          by_cases h3 : limit ≤ (acc ++ [(orig, v)]).length
          · rw [if_pos h3]
            exact hacc2
          · rw [if_neg h3]
            refine ih (acc ++ [(orig, v)]) hrest hacc2 ?_
            intro a ha x hx
            rcases List.mem_append.mp ha with h4 | h4
            · exact hordr a h4 x hx
            · have ha2 : a = (orig, v) := List.mem_singleton.mp h4
              subst ha2
              rw [show ((orig, v) : Bytes × Bytes).1 = orig from rfl, ← hk]
              exact hall x hx
        | none =>
          simp only
          exact ih acc hrest hacc hordr

theorem scanLoop_length_of_lt (cf pS : Bytes) (pE : Option Bytes) (limit : Nat) :
    ∀ (l : Store) (acc : List (Bytes × Bytes)), acc.length < limit →
      (scanLoop cf pS pE limit acc l).length ≤ limit := by
  intro l
  induction l with
  | nil =>
    intro acc h
    simp only [scanLoop]
    omega
  | cons hd rest ih =>
    intro acc h
    obtain ⟨k, v⟩ := hd
    simp only [scanLoop]
    by_cases h1 : lexLt k pS
    · rw [if_pos h1]
      exact ih acc h
    · rw [if_neg h1]
      by_cases h2 : pastEnd pE k
      · rw [if_pos h2]
        omega
      · rw [if_neg h2]
        cases hstrip : stripCf cf k with
        | some orig =>
          simp only
          by_cases h3 : limit ≤ (acc ++ [(orig, v)]).length
          · rw [if_pos h3]
            simp only [List.length_append, List.length_singleton]
            omega
          · rw [if_neg h3]
            refine ih (acc ++ [(orig, v)]) ?_
            simp only [List.length_append, List.length_singleton] at h3 ⊢
            omega
        | none =>
          simp only
          exact ih acc h

theorem scanLoop_length_zero (cf pS : Bytes) (pE : Option Bytes) :
    ∀ (l : Store) (acc : List (Bytes × Bytes)),
      (scanLoop cf pS pE 0 acc l).length ≤ acc.length + 1 := by
  intro l
  induction l with
  | nil =>
    intro acc
    simp only [scanLoop]
    omega
  | cons hd rest ih =>
    intro acc
    obtain ⟨k, v⟩ := hd
    simp only [scanLoop]
    by_cases h1 : lexLt k pS
    · rw [if_pos h1]
      exact Nat.le_trans (ih acc) (by omega)
    · rw [if_neg h1]
      by_cases h2 : pastEnd pE k
      · rw [if_pos h2]
        omega
      · rw [if_neg h2]
        cases hstrip : stripCf cf k with
        | some orig =>
          simp only
          rw [if_pos (Nat.zero_le _)]
          simp only [List.length_append, List.length_singleton]
          omega
        | none =>
          simp only
          exact Nat.le_trans (ih acc) (by omega)

/-! ### Claims -/

/-- C1 (amended): for a store satisfying the map invariant, every scan
result is in strictly ascending raw-key order, every returned raw key
satisfies `start <= key` and (when an end key is given) `key < end`, and
every returned pair corresponds to a stored entry whose encoded key is
`cf ++ separator ++ raw_key` — which are exactly the entries written
under `cf` when no column-family name contains the separator byte. -/
theorem scan_cf_spec (s : Store) (hs : SortedStore s) (cf start_key : Bytes)
    (end_key : Option Bytes) (limit : Nat) :
    List.Pairwise (fun p q : Bytes × Bytes => lexLt p.1 q.1 = true)
      (scan_cf s cf start_key end_key limit)
    ∧ ∀ p ∈ scan_cf s cf start_key end_key limit,
        lexLt p.1 start_key = false
        ∧ (∀ e, end_key = some e → lexLt p.1 e = true)
        ∧ btGet s (key_with_cf cf p.1) = some p.2 := by
  constructor
  · exact scanLoop_pairwise cf _ _ limit s [] hs (by simp) (by simp)
  · intro p hp
    rcases scanLoop_mem cf _ _ limit s [] p hp with h | ⟨kv, hkv, hns, hne, hstrip, hv⟩
    · simp at h
    · have hk : kv.1 = key_with_cf cf p.1 := stripCf_some cf kv.1 p.1 hstrip
      refine ⟨?_, ?_, ?_⟩
      · rw [hk, lexLt_encode] at hns
        exact hns
      · intro e he
        subst he
        simp only [Option.map_some', pastEnd, Bool.not_eq_false'] at hne
        rw [hk, lexLt_encode] at hne
        exact hne
      · rw [← hk, ← hv]
        exact btGet_of_mem s kv.1 kv.2 hs hkv

theorem scan_cf_spec_witness :
    SortedStore [([97, 95, 97], [1]), ([97, 95, 99], [2])]
    ∧ (List.Pairwise (fun p q : Bytes × Bytes => lexLt p.1 q.1 = true)
        (scan_cf [([97, 95, 97], [1]), ([97, 95, 99], [2])] [97] [97] (some [99]) 10)
      ∧ ∀ p ∈ scan_cf [([97, 95, 97], [1]), ([97, 95, 99], [2])] [97] [97] (some [99]) 10,
          lexLt p.1 [97] = false
          ∧ (∀ e, (some [99] : Option Bytes) = some e → lexLt p.1 e = true)
          ∧ btGet [([97, 95, 97], [1]), ([97, 95, 99], [2])] (key_with_cf [97] p.1)
              = some p.2) :=
  ⟨by decide, scan_cf_spec [([97, 95, 97], [1]), ([97, 95, 99], [2])] (by decide)
    [97] [97] (some [99]) 10⟩

/-- C1 counterexample: after writing only under column family `"a_b"`
(bytes `[97, 95, 98]`), a scan of column family `"a"` (bytes `[97]`)
returns that entry, although no record of the batch was written under
`"a"`. -/
theorem scan_cf_foreign_cf :
    scan_cf (write [Modify.new_put [97, 95, 98] [120] [5]] []) [97] [] none 10
      = [([98, 95, 120], [5])]
    ∧ ∀ m ∈ [Modify.new_put [97, 95, 98] [120] [5]], m.cf ≠ [97] := by
  decide

/-- C2: two distinct (cf, key) pairs — cf `"a"` with key `"b_x"` and cf
`"a_b"` with key `"x"` — produce the same encoded byte string `"a_b_x"`,
and `write` silently accepts both (the second overwrites the first);
nothing in the implementation rejects them. -/
theorem key_encoding_collision :
    key_with_cf [97] [98, 95, 120] = key_with_cf [97, 95, 98] [120]
    ∧ (([97], [98, 95, 120]) : Bytes × Bytes) ≠ ([97, 95, 98], [120])
    ∧ write [Modify.new_put [97, 95, 98] [120] [2]]
        (write [Modify.new_put [97] [98, 95, 120] [1]] [])
        = [([97, 95, 98, 95, 120], [2])] := by
  decide

/-- C3 (amended): for a store built by a write batch whose column-family
names are valid UTF-8 and free of the separator byte, `get_stats` returns
the map size as total and a strictly sorted (hence duplicate-free) name
list containing exactly the separator-free column families that have at
least one live entry. -/
theorem get_stats_spec (batch : List Modify)
    (hb : ∀ m ∈ batch, utf8Valid m.cf = true ∧ CF_SEPARATOR ∉ m.cf) :
    (get_stats (write batch [])).1 = (write batch []).length
    ∧ List.Pairwise (fun a b : Bytes => lexLt a b = true) (get_stats (write batch [])).2
    ∧ ∀ cf : Bytes, CF_SEPARATOR ∉ cf →
        (cf ∈ (get_stats (write batch [])).2
          ↔ ∃ k v : Bytes, get_cf (write batch []) cf k = some v) := by
  have hsorted : SortedStore (write batch []) :=
    sorted_write batch [] (by simp [SortedStore])
  refine ⟨rfl, pairwise_sortDedup _, ?_⟩
  intro cf hcf
  constructor
  · intro hmem
    rw [show (get_stats (write batch [])).2
        = sortDedup ((write batch []).filterMap (fun kv => cfOfKey kv.1)) from rfl,
      mem_sortDedup, List.mem_filterMap] at hmem
    obtain ⟨kv, hkv, hcfk⟩ := hmem
    rcases mem_write batch [] kv.1 kv.2 hkv with h | ⟨m, hm, hq⟩
    · simp at h
    · obtain ⟨hval, h95⟩ := hb m hm
      rw [hq, cfOfKey_encode m.cf m.key h95 hval] at hcfk
      obtain rfl : m.cf = cf := by injection hcfk
      refine ⟨m.key, kv.2, ?_⟩
      rw [get_cf, ← hq]
      exact btGet_of_mem _ kv.1 kv.2 hsorted hkv
  · intro hlive
    obtain ⟨k, v, hget⟩ := hlive
    rw [get_cf] at hget
    have hkv := btGet_mem _ _ _ hget
    rcases mem_write batch [] (key_with_cf cf k) v hkv with h | ⟨m, hm, hq⟩
    · simp at h
    · obtain ⟨hval, h95⟩ := hb m hm
      obtain ⟨heq, -⟩ := sep_inj cf m.cf k m.key hcf h95 hq
      have hval2 : utf8Valid cf = true := by
        rw [heq]
        exact hval
      rw [show (get_stats (write batch [])).2
          = sortDedup ((write batch []).filterMap (fun kv => cfOfKey kv.1)) from rfl,
        mem_sortDedup, List.mem_filterMap]
      exact ⟨(key_with_cf cf k, v), hkv, cfOfKey_encode cf k hcf hval2⟩

theorem get_stats_spec_witness :
    (∀ m ∈ [Modify.new_put [97] [107] [5]], utf8Valid m.cf = true ∧ CF_SEPARATOR ∉ m.cf)
    ∧ ((get_stats (write [Modify.new_put [97] [107] [5]] [])).1
        = (write [Modify.new_put [97] [107] [5]] []).length
      ∧ List.Pairwise (fun a b : Bytes => lexLt a b = true)
          (get_stats (write [Modify.new_put [97] [107] [5]] [])).2
      ∧ ∀ cf : Bytes, CF_SEPARATOR ∉ cf →
          (cf ∈ (get_stats (write [Modify.new_put [97] [107] [5]] [])).2
            ↔ ∃ k v : Bytes, get_cf (write [Modify.new_put [97] [107] [5]] []) cf k
                = some v)) :=
  ⟨by decide, get_stats_spec [Modify.new_put [97] [107] [5]] (by decide)⟩

/-- C3 counterexample: after writing one entry under column family
`"a_b"`, that column family has a live entry, yet `get_stats` does not
list it (it lists `"a"`, the part before the first separator, instead). -/
theorem get_stats_missing_cf :
    get_cf (write [Modify.new_put [97, 95, 98] [120] [1]] []) [97, 95, 98] [120] = some [1]
    ∧ [97, 95, 98] ∉ (get_stats (write [Modify.new_put [97, 95, 98] [120] [1]] [])).2
    ∧ (get_stats (write [Modify.new_put [97, 95, 98] [120] [1]] [])).2 = [[97]] := by
  decide

/-- C4 (amended): a scan returns at most `max limit 1` entries — the
limit check happens only after a push, so a scan with `limit = 0` can
still return one entry. -/
theorem scan_limit_bound (s : Store) (cf start_key : Bytes)
    (end_key : Option Bytes) (limit : Nat) :
    (scan_cf s cf start_key end_key limit).length ≤ max limit 1 := by
  rcases Nat.eq_zero_or_pos limit with h | h
  · subst h
    have hb := scanLoop_length_zero cf (key_with_cf cf start_key)
      (end_key.map (key_with_cf cf)) s []
    simp only [List.length_nil] at hb
    exact le_trans hb (by omega)
  · have hb := scanLoop_length_of_lt cf (key_with_cf cf start_key)
      (end_key.map (key_with_cf cf)) limit s [] (by simpa using h)
    exact le_trans hb (Nat.le_max_left _ _)

/-- C4 counterexample: with `limit = 0` the scan still returns one
entry, not the empty list. -/
theorem scan_limit_zero_nonempty :
    scan_cf (write [Modify.new_put [100] [97] [7]] []) [100] [] none 0 = [([97], [7])]
    ∧ scan_cf (write [Modify.new_put [100] [97] [7]] []) [100] [] none 0 ≠ [] := by
  decide

/-- C5: distinct column families isolate the same raw key — after
`put(a,k,v1)` then `put(b,k,v2)` with `a ≠ b`, `get(a,k) = v1` and
`get(b,k) = v2`, from any starting store. -/
theorem cf_isolation (s : Store) (a b k v1 v2 : Bytes) (hab : a ≠ b) :
    get_cf (write [Modify.new_put b k v2] (write [Modify.new_put a k v1] s)) a k = some v1
    ∧ get_cf (write [Modify.new_put b k v2] (write [Modify.new_put a k v1] s)) b k
        = some v2 := by
  have hw1 : write [Modify.new_put a k v1] s = btInsert s (key_with_cf a k) v1 := rfl
  have hw2 : ∀ t : Store, write [Modify.new_put b k v2] t
      = btInsert t (key_with_cf b k) v2 := fun t => rfl
  have hne : key_with_cf a k ≠ key_with_cf b k :=
    fun h => hab (key_with_cf_inj_cf a b k h)
  constructor
  · rw [hw2, hw1, get_cf, btGet_insert_ne _ _ _ _ hne]
    exact btGet_insert_self s _ v1
  · rw [hw2, get_cf]
    exact btGet_insert_self _ _ v2

theorem cf_isolation_witness :
    ([97] : Bytes) ≠ [98]
    ∧ (get_cf (write [Modify.new_put [98] [107] [2]]
          (write [Modify.new_put [97] [107] [1]] [])) [97] [107] = some [1]
      ∧ get_cf (write [Modify.new_put [98] [107] [2]]
          (write [Modify.new_put [97] [107] [1]] [])) [98] [107] = some [2]) :=
  ⟨by decide, cf_isolation [] [97] [98] [107] [1] [2] (by decide)⟩

/-- C6 (amended): `write` folds the batch in list order, `Put` inserting
or overwriting and `Delete` removing; the value left at a key is
determined by the last record of the batch whose encoded key equals that
key's encoding (which is the last record with that (cf, key) whenever no
two distinct pairs collide). -/
theorem write_last_wins (batch : List Modify) (s : Store) (hs : SortedStore s)
    (cf key : Bytes) :
    get_cf (write batch s) cf key =
      match lastMatch batch (key_with_cf cf key) with
      | some m =>
        (match m.op with
         | ModifyOp.Put => some m.value
         | ModifyOp.Delete => none)
      | none => get_cf s cf key := by
  induction batch generalizing s with
  | nil => simp [write, lastMatch]
  | cons m rest ih =>
    have hw : write (m :: rest) s = write rest (applyModify s m) := rfl
    rw [hw, ih (applyModify s m) (sorted_applyModify s m hs)]
    simp only [lastMatch]
    cases hlm : lastMatch rest (key_with_cf cf key) with
    | some m1 => rfl
    | none =>
      simp only
      by_cases heq : key_with_cf m.cf m.key = key_with_cf cf key
      · rw [if_pos heq]
        cases hop : m.op
        · simp only
          rw [get_cf, applyModify, hop, heq]
          exact btGet_insert_self s _ m.value
        · simp only
          rw [get_cf, applyModify, hop, heq]
          exact btGet_remove_self s _ hs
      · rw [if_neg heq]
        cases hop : m.op
        · rw [get_cf, get_cf, applyModify, hop]
          exact btGet_insert_ne s _ _ _ (fun h => heq h.symm)
        · rw [get_cf, get_cf, applyModify, hop]
          exact btGet_remove_ne s _ _ (fun h => heq h.symm)

theorem write_last_wins_witness :
    SortedStore []
    ∧ get_cf (write [Modify.new_put [97] [107] [1], Modify.new_put [97] [107] [2]] [])
        [97] [107] =
      match lastMatch [Modify.new_put [97] [107] [1], Modify.new_put [97] [107] [2]]
          (key_with_cf [97] [107]) with
      | some m =>
        (match m.op with
         | ModifyOp.Put => some m.value
         | ModifyOp.Delete => none)
      | none => get_cf [] [97] [107] :=
  ⟨by decide,
   write_last_wins [Modify.new_put [97] [107] [1], Modify.new_put [97] [107] [2]]
     [] (by decide) [97] [107]⟩

/-- C6 counterexample: cf `"a"` key `"b_x"` appears twice in a batch
whose last record for that pair puts value `[1]`, but a later record
under the colliding pair (cf `"a_b"`, key `"x"`) determines the final
state: `get("a","b_x")` returns `[2]`, not `[1]`. -/
theorem write_last_wins_collision :
    get_cf (write [Modify.new_put [97] [98, 95, 120] [1],
                   Modify.new_put [97] [98, 95, 120] [1],
                   Modify.new_put [97, 95, 98] [120] [2]] []) [97] [98, 95, 120]
      = some [2]
    ∧ (some [2] : Option Bytes) ≠ some [1] := by
  decide

/-- C8: deleting makes the key absent, and deleting an absent key leaves
the store unchanged (the Rust call returns `Ok` in both cases; the only
failure path is lock poisoning, absent from the sequential model). -/
theorem delete_spec (s : Store) (cf key : Bytes) (hs : SortedStore s) :
    get_cf (write [Modify.new_delete cf key] s) cf key = none
    ∧ (get_cf s cf key = none → write [Modify.new_delete cf key] s = s) := by
  have hw : write [Modify.new_delete cf key] s = btRemove s (key_with_cf cf key) := rfl
  constructor
  · rw [hw, get_cf]
    exact btGet_remove_self s _ hs
  · intro h
    rw [hw]
    exact btRemove_of_absent s _ h

theorem delete_spec_witness :
    SortedStore [([97, 95, 107], [1])]
    ∧ (get_cf (write [Modify.new_delete [97] [107]] [([97, 95, 107], [1])]) [97] [107]
        = none
      ∧ (get_cf [([97, 95, 107], [1])] [97] [107] = none →
          write [Modify.new_delete [97] [107]] [([97, 95, 107], [1])]
            = [([97, 95, 107], [1])])) :=
  ⟨by decide, delete_spec [([97, 95, 107], [1])] [97] [107] (by decide)⟩

/-- C9: the `Compact` branch of `handle_command` returns `Response::Ok`
unconditionally — it can never produce an `Error` response — and leaves
the store untouched. -/
theorem compact_noop (flushResult : Except String Unit) (s : Store) :
    handleCommand flushResult s Command.compact = (Response.ok, s) := rfl

/-- C10: putting the empty byte string as a value makes `get` return
`Some` of the empty value, not `None` — an empty value is distinguishable
from an absent key. -/
theorem put_empty_value (s : Store) (cf key : Bytes) :
    get_cf (write [Modify.new_put cf key []] s) cf key = some []
    ∧ get_cf (write [Modify.new_put cf key []] s) cf key ≠ none := by
  have hw : write [Modify.new_put cf key []] s = btInsert s (key_with_cf cf key) [] := rfl
  constructor
  · rw [hw, get_cf]
    exact btGet_insert_self s _ []
  · rw [hw, get_cf, btGet_insert_self s _ []]
    simp

end TinyKv
